import Mathlib

/-!
Verification development for the azul query-building / relation engine.

The JavaScript sources are shallowly embedded as Lean definitions:

* `src/lib/query/base.js` (`BaseQuery`): duplication (`_dup`/`_take`), cloning,
  spawning, statement rendering and execute-once caching, modelled as
  operations over an explicit store of query states (queries are mutable
  heap objects in the source, so duplication/freshness claims are stated
  over the store).
* `src/lib/query/model_join.js` (`ModelQuery` join mixin): association joins,
  the joined-relations bookkeeping map, table-alias disambiguation.
* `src/unnamed/part_001` (`BelongsTo` option mixin): lazily cached
  inverse/primaryKey/foreignKey derivation.
* `src/lib/relations/base.js` (`BaseRelation#template`): placeholder
  substitution for generated member names.
* `src/lib/adapters/mysql.js` (`MySQLAdapter.Translator`): dialect predicate
  overrides.

External collaborators that are not part of the repository sources under
verification (lodash/inflection string helpers, the base `Translator`) are
taken as parameters; repository code that is referenced but absent from the
provided sources (the raw `Join` mixin, `_associationForEach`,
`_lookupRelation`) is modelled from the spec and marked as such.
-/

namespace Azul

/-! ### Statements and the dialect translation layer -/

/-- An SQL statement: SQL text plus ordered bound arguments. -/
structure Statement where
  sql : String
  args : List String
deriving DecidableEq, Repr

/-- Modelled from the spec: a Translator predicate object.  `format` is the
dialect SQL fragment (with `%s` placeholders) and `valueTransforms` the named
value-transformation chain applied to the bound value. -/
structure Predicate where
  format : String
  valueTransforms : List String
deriving DecidableEq, Repr

/-- Translator predicate builder `p.using(fmt)`: replaces the SQL fragment. -/
def Predicate.using (p : Predicate) (fmt : String) : Predicate :=
  { p with format := fmt }

/-- Translator predicate builder `p.value(...)`: replaces the value-transform
chain with the given named transforms. -/
def Predicate.value (p : Predicate) (ts : List String) : Predicate :=
  { p with valueTransforms := ts }

/-- The predicate names `MySQLAdapter.Translator` overrides
(`src/lib/adapters/mysql.js` lines 100-135). -/
def mysqlOverriddenPredicates : List String :=
  ["iExact", "contains", "iContains", "regex", "iRegex",
   "startsWith", "iStartsWith", "endsWith", "iEndsWith", "weekday"]

/-- `MySQLAdapter.Translator`'s predicate lookup (`src/lib/adapters/mysql.js`):
each `predicateForX` override takes the base translator's predicate
(`this._super(p)`, here `base name`) and rewrites its format and value
transforms; names without an override fall through to the base translator. -/
def mysqlPredicateFor (base : String → Predicate) (name : String) : Predicate :=
  if name = "iExact" then (base name).using "%s LIKE %s"
  else if name = "contains" then
    ((base name).using "%s LIKE BINARY %s").value ["like", "contains"]
  else if name = "iContains" then
    ((base name).using "%s LIKE %s").value ["like", "contains"]
  else if name = "regex" then
    ((base name).using "%s REGEXP BINARY %s").value ["regex"]
  else if name = "iRegex" then
    ((base name).using "%s REGEXP %s").value ["regex"]
  else if name = "startsWith" then
    ((base name).using "%s LIKE BINARY %s").value ["like", "startsWith"]
  else if name = "iStartsWith" then
    ((base name).using "%s LIKE %s").value ["like", "startsWith"]
  else if name = "endsWith" then
    ((base name).using "%s LIKE BINARY %s").value ["like", "endsWith"]
  else if name = "iEndsWith" then
    ((base name).using "%s LIKE %s").value ["like", "endsWith"]
  else if name = "weekday" then
    ((base name).using "WEEKDAY(%s) = %s").value ["parseWeekday", "shiftWeekday"]
  else base name

/-! ### Abstract base-query statement rendering (`src/lib/query/base.js`) -/

/-- A query type's rendering capability: concrete subtypes bind a renderer
from structural state to a `Statement`; the abstract `BaseQuery` binds none. -/
structure QueryTypeInfo where
  renderer : Option (String → Statement)

/-- The abstract `BaseQuery` type: no concrete rendering logic is bound. -/
def baseQueryType : QueryTypeInfo := { renderer := none }

/-- `BaseQuery#_statement` (`src/lib/query/base.js` lines 175-177): subclass
override point; with no renderer bound it throws
"BaseQuery cannot be used directly.". -/
def statementImpl (t : QueryTypeInfo) (structuralState : String) :
    Except String Statement :=
  match t.renderer with
  | some f => Except.ok (f structuralState)
  | none => Except.error "BaseQuery cannot be used directly."

/-- `BaseQuery#statement` property (`src/lib/query/base.js` lines 164-166):
simply returns `this._statement()`. -/
def statementProperty (t : QueryTypeInfo) (structuralState : String) :
    Except String Statement :=
  statementImpl t structuralState

/-! ### Inflection / lodash string helpers (external collaborators)

The repository's `util/inflection` and lodash's `camelCase`/`snakeCase`/
`capitalize` are external to the verified sources, so they are carried as
parameters of the model. -/

/-- Bundled string-inflection helpers used by the relation layer. -/
structure Inflector where
  singularize : String → String
  pluralize : String → String
  camelCase : String → String
  snakeCase : String → String
  capitalize : String → String

/-! ### `BelongsTo` option derivation (`src/unnamed/part_001`) -/

/-- Options handed to a `BelongsTo` relation.  `none` models an absent
(JavaScript `undefined`) option. -/
structure BelongsToOptions where
  inverse : Option String
  primaryKey : Option String
  foreignKey : Option String
deriving DecidableEq, Repr

/-- JavaScript truthiness on an optional string: `undefined` and the empty
string are falsy. -/
def jsFalsy : Option String → Bool
  | none => true
  | some s => s == ""

/-- JavaScript `a || b` for an optional string `a` and default `b`. -/
def jsOr (a : Option String) (b : String) : String :=
  match a with
  | none => b
  | some s => if s == "" then b else s

/-- The mutable state of a `BelongsTo` relation object: identity fields set by
`BaseRelation#init` plus the lazily computed caches (`_inverse`,
`_primaryKey`, `_foreignKey`), which start out unset. -/
structure BelongsToState where
  name : String
  modelClassName : String
  options : BelongsToOptions
  inverseCache : Option String
  primaryKeyCache : Option String
  foreignKeyCache : Option String
deriving DecidableEq, Repr

/-- `BelongsTo#inverse` (`src/unnamed/part_001` lines 26-32): on first access
(falsy cache) computes `options.inverse || pluralize(camelCase(className))`
and stores it; returns the cache thereafter.  Returns the value together with
the updated relation state. -/
def inverseGet (infl : Inflector) (st : BelongsToState) :
    String × BelongsToState :=
  if jsFalsy st.inverseCache then
    let inv := infl.camelCase st.modelClassName
    let v := jsOr st.options.inverse (infl.pluralize inv)
    (v, { st with inverseCache := some v })
  else
    (st.inverseCache.getD "", st)

/-- `BelongsTo#primaryKey` (`src/unnamed/part_001` lines 41-46): on first
access computes `options.primaryKey || 'id'` and stores it. -/
def primaryKeyGet (st : BelongsToState) : String × BelongsToState :=
  if jsFalsy st.primaryKeyCache then
    let v := jsOr st.options.primaryKey "id"
    (v, { st with primaryKeyCache := some v })
  else
    (st.primaryKeyCache.getD "", st)

/-- `BelongsTo#foreignKey` (`src/unnamed/part_001` lines 55-61): on first
access computes `options.foreignKey || snakeCase(name + '_id')` and stores
it. -/
def foreignKeyGet (infl : Inflector) (st : BelongsToState) :
    String × BelongsToState :=
  if jsFalsy st.foreignKeyCache then
    let v := jsOr st.options.foreignKey (infl.snakeCase (st.name ++ "_id"))
    (v, { st with foreignKeyCache := some v })
  else
    (st.foreignKeyCache.getD "", st)

/-- A freshly constructed `BelongsTo` (`BaseRelation#init` sets only the
identity fields; no caches are initialised). -/
def belongsToInit (name modelClassName : String) (opts : BelongsToOptions) :
    BelongsToState :=
  { name := name, modelClassName := modelClassName, options := opts,
    inverseCache := none, primaryKeyCache := none, foreignKeyCache := none }

/-! ### `BaseRelation#template` (`src/lib/relations/base.js` lines 259-270)

JavaScript's `String.prototype.replace` with a string pattern replaces only
the first occurrence; `replaceFirst` embeds that semantics. -/

/-- First-occurrence replacement on character lists, scanning left to right
exactly as `String.prototype.replace(stringPattern, replacement)` does. -/
def replaceFirstAux (pat repl : List Char) : List Char → List Char
  | [] => []
  | c :: rest =>
    if pat.isPrefixOf (c :: rest) then repl ++ (c :: rest).drop pat.length
    else c :: replaceFirstAux pat repl rest

/-- First-occurrence replacement on strings. -/
def replaceFirst (s pat repl : String) : String :=
  String.mk (replaceFirstAux pat.data repl.data s.data)

/-- `BaseRelation#template`: substitutes the `<singular>`, `<Singular>`,
`<plural>`, `<Plural>` placeholders (each via a single
`String.prototype.replace` call, in this order) with the inflected forms of
the relation name. -/
def template (infl : Inflector) (relationName : String) (s : String) : String :=
  let singular := infl.singularize relationName
  let plural := infl.pluralize singular
  let singularCapitalized := infl.capitalize singular
  let pluralCapitalized := infl.capitalize plural
  replaceFirst
    (replaceFirst
      (replaceFirst
        (replaceFirst s "<singular>" singular)
        "<Singular>" singularCapitalized)
      "<plural>" plural)
    "<Plural>" pluralCapitalized

/-! ### The query model

Queries are mutable heap objects in the source (duplication copies state,
`_joinedRelations` is re-assigned on the duplicate, `execute` flips a flag),
so query operations are embedded as operations over an explicit store of
query states.  Each operation returns the updated store together with the
index of the query instance it produced. -/

/-- A relation as seen by the join machinery: its `_name`, its owning model's
table (`modelClass.tableName`), the related model's registry name and the
related model's table (`relatedModelClass.tableName`). -/
structure Relation where
  name : String
  modelTableName : String
  relatedModelName : String
  relatedTableName : String
deriving DecidableEq, Repr

/-- A model class as seen by the query layer: class name, table name and its
named relations. -/
structure ModelInfo where
  name : String
  tableName : String
  relations : List (String × Relation)
deriving DecidableEq, Repr

/-- The database's model registry (`db.model(name)`). -/
def Env := List (String × ModelInfo)

/-- Modelled from the spec: the ON-clause fragment a relation produces for a
join (`Relation#joinCondition(baseTableAlias, relatedTableAlias)`; the
concrete belongs-to/has-many implementations are not among the provided
sources).  It records the two table aliases and the relation it came from. -/
structure JoinPredicate where
  baseTable : String
  relatedTable : String
  relationName : String
deriving DecidableEq, Repr

/-- Modelled from the spec: a raw join descriptor as appended by the `Join`
mixin's `join(table_or_alias, kind, condition)` (the mixin itself is not
among the provided sources; per the spec it appends a join descriptor to a
fresh duplicate).  A plain table argument has `tableAlias = table`. -/
structure JoinClause where
  table : String
  tableAlias : String
  kind : String
  cond : JoinPredicate
deriving DecidableEq, Repr

/-- An entry of the per-query `_joinedRelations` map: the alias under which
the relation was joined (`as`) and the relation itself. -/
structure JoinDetails where
  «as» : String
  relation : Relation
deriving DecidableEq, Repr

/-- Association-list lookup (JavaScript object property read). -/
def lookupA {α : Type} (m : List (String × α)) (k : String) : Option α :=
  match m.find? (fun p => p.1 == k) with
  | some p => some p.2
  | none => none

/-- Association-list write (JavaScript object property assignment):
overwrites an existing key, otherwise appends. -/
def jrSet (m : List (String × JoinDetails)) (k : String) (v : JoinDetails) :
    List (String × JoinDetails) :=
  if m.any (fun p => p.1 == k) then
    m.map (fun p => if p.1 == k then (k, v) else p)
  else m ++ [(k, v)]

/-- The state of one query instance: its model, the appended join clauses,
the `_joinedRelations` bookkeeping map, the `_executed` flag, the identity of
its deferred result (`_promise`) and the settled result slot. -/
structure QueryState where
  model : ModelInfo
  joins : List JoinClause
  joinedRelations : List (String × JoinDetails)
  executed : Bool
  pid : Nat
  result : Option Nat
deriving DecidableEq, Repr

/-- The store of live query instances plus a counter for fresh promise
identities and the number of adapter invocations made so far. -/
structure Store where
  queries : List QueryState
  nextPid : Nat
  adapterCalls : Nat
deriving DecidableEq, Repr

/-- Replace the state of query `i`. -/
def setQ (s : Store) (i : Nat) (q : QueryState) : Store :=
  { s with queries := s.queries.set i q }

/-- `BaseQuery#_dup` (`src/lib/query/base.js` lines 110-117) with the `_take`
implementations of `src/lib/query/base.js` lines 126-134 (same adapter,
`_executed = false`, fresh pending promise) and `src/lib/query/model_join.js`
lines 38-41 (`_joinedRelations = _.clone(orig._joinedRelations)`): allocates
a new instance copying the original's state.  Returns the new instance's
index. -/
def dupOp (s : Store) (qid : Nat) : Option (Store × Nat) :=
  match s.queries[qid]? with
  | none => none
  | some q =>
    some ({ s with
              queries := s.queries ++
                [{ q with executed := false, pid := s.nextPid, result := none }],
              nextPid := s.nextPid + 1 },
          s.queries.length)

/-- `BaseQuery#clone` (`src/lib/query/base.js` lines 149-151): simply
`this._dup()`. -/
def cloneOp (s : Store) (qid : Nat) : Option (Store × Nat) :=
  dupOp s qid

/-- `BaseQuery#_spawn` (`src/lib/query/base.js` lines 72-87): copies the
parent via `_take` and then runs the target type's `_create`, which for the
model-join mixin re-initialises `_joinedRelations` to a fresh empty map
(`src/lib/query/model_join.js` lines 26-29). -/
def spawnOp (s : Store) (qid : Nat) : Option (Store × Nat) :=
  match s.queries[qid]? with
  | none => none
  | some q =>
    some ({ s with
              queries := s.queries ++
                [{ q with executed := false, pid := s.nextPid, result := none,
                          joinedRelations := [] }],
              nextPid := s.nextPid + 1 },
          s.queries.length)

/-- Modelled from the spec: the raw `Join` mixin's `join` (not among the
provided sources) returns a fresh duplicate with one appended join
descriptor. -/
def joinRawOp (s : Store) (qid : Nat) (table tblAlias kind : String)
    (cond : JoinPredicate) : Option (Store × Nat) :=
  match dupOp s qid with
  | none => none
  | some (s₁, nid) =>
    match s₁.queries[nid]? with
    | none => none
    | some q =>
      some (setQ s₁ nid
              { q with joins := q.joins ++ [⟨table, tblAlias, kind, cond⟩] },
            nid)

/-- An argument to the variadic `join` method: a plain string, a
table-with-alias object (`\x7btable: alias\x7d`), or a join condition. -/
inductive JoinArg where
  | str (s : String)
  | tbl (table tblAlias : String)
  | cnd (c : JoinPredicate)
deriving DecidableEq, Repr

/-- Modelled from the spec: the raw `Join` mixin's `join(table_or_alias,
kind, condition)` entry point reached through `this._super` when more than
one argument is given. -/
def superJoin (s : Store) (qid : Nat) (args : List JoinArg) :
    Option (Store × Nat) :=
  match args with
  | [JoinArg.str t, JoinArg.str k, JoinArg.cnd c] => joinRawOp s qid t t k c
  | [JoinArg.tbl t a, JoinArg.str k, JoinArg.cnd c] => joinRawOp s qid t a k c
  | _ => none

/-- `ModelQuery#_tableInQuery` (`src/lib/query/model_join.js` lines 95-102):
whether `name` is the query's primary table or the alias of any joined
relation. -/
def tableInQuery (q : QueryState) (name : String) : Bool :=
  name == q.model.tableName ||
    q.joinedRelations.any (fun p => p.2.as == name)

/-- The candidate aliases tried by `ModelQuery#_uniqueTableAlias`: the bare
base name first, then `name_j1`, `name_j2`, ... -/
def aliasCandidate (name : String) : Nat → String
  | 0 => name
  | n + 1 => name ++ "_j" ++ Nat.repr (n + 1)

/-- The search loop of `ModelQuery#_uniqueTableAlias` (`src/lib/query/
model_join.js` lines 111-119), trying `aliasCandidate name n` while the
candidate is in use.  The source's `while` loop is unbounded; here it carries
fuel, and `none` models fuel exhaustion. -/
def uniqueTableAliasAux (q : QueryState) (name : String) :
    Nat → Nat → Option String
  | 0, _ => none
  | fuel + 1, n =>
    let c := aliasCandidate name n
    if tableInQuery q c then uniqueTableAliasAux q name fuel (n + 1)
    else some c

/-- `ModelQuery#_uniqueTableAlias`: first unused candidate.  The fuel
`q.joinedRelations.length + 2` covers one more candidate than there are names
in the query (primary table plus one alias per joined relation). -/
def uniqueTableAlias (q : QueryState) (name : String) : Option String :=
  uniqueTableAliasAux q name (q.joinedRelations.length + 2) 0

/-- Modelled from the spec: `Relation#joinCondition(baseTableAlias,
relatedTableAlias)` builds the ON-clause fragment for the relation. -/
def joinCondition (rel : Relation) (baseTable relatedTable : String) :
    JoinPredicate :=
  ⟨baseTable, relatedTable, rel.name⟩

/-- The base table `_joinRelation` joins from: the previous (`through`)
join's alias when one is recorded, the relation's own model table
otherwise. -/
def joinBaseTable (q : QueryState) (through : Option String)
    (rel : Relation) : String :=
  match through.bind (fun t => lookupA q.joinedRelations t) with
  | some d => d.as
  | none => rel.modelTableName

/-- `ModelQuery#_joinRelation` (`src/lib/query/model_join.js` lines 130-156):
determines base and join tables from the relation, redirects the base table
through an earlier join when `through` is given, aliases the join table via
`_uniqueTableAlias(relation._name)` when the table is already used in the
query, performs the raw inner join (a three-argument `this.join` call, which
dispatches to the superclass join), and finally records
`\x7bas, relation\x7d` under `name` in the new duplicate's
`_joinedRelations`. -/
def joinRelationOp (s : Store) (qid : Nat) (name : String)
    (through : Option String) (rel : Relation) : Option (Store × Nat) :=
  match s.queries[qid]? with
  | none => none
  | some q =>
    let joinTable0 := rel.relatedTableName
    let baseTable := joinBaseTable q through rel
    let argAlias : Option (JoinArg × String) :=
      if tableInQuery q joinTable0 then
        match uniqueTableAlias q rel.name with
        | none => none
        | some a => some (JoinArg.tbl joinTable0 a, a)
      else some (JoinArg.str joinTable0, joinTable0)
    match argAlias with
    | none => none
    | some (joinArg, joinTable) =>
      let cond := joinCondition rel baseTable joinTable
      match superJoin s qid [joinArg, JoinArg.str "inner", JoinArg.cnd cond] with
      | none => none
      | some (s₁, nid) =>
        match s₁.queries[nid]? with
        | none => none
        | some q' =>
          let jr' := jrSet q'.joinedRelations name ⟨joinTable, rel⟩
          some (setQ s₁ nid { q' with joinedRelations := jr' }, nid)

/-- Modelled from the spec: `ModelQuery#_lookupRelation` (helpers mixin, not
among the provided sources) resolves a key path segment by segment, each
segment naming a relation on the related model of the previous segment, and
yields the final segment's relation. -/
def lookupRelation (env : Env) (m : ModelInfo) :
    List String → Option Relation
  | [] => none
  | [seg] => lookupA m.relations seg
  | seg :: rest =>
    match lookupA m.relations seg with
    | none => none
    | some rel =>
      match lookupA env rel.relatedModelName with
      | none => none
      | some m' => lookupRelation env m' rest

/-- Splitting a character list on `'.'` (JavaScript `string.split('.')`),
accumulating the current segment in reverse. -/
def splitDotsAux (cur : List Char) : List Char → List String
  | [] => [String.mk cur.reverse]
  | c :: rest =>
    if c = '.' then String.mk cur.reverse :: splitDotsAux [] rest
    else splitDotsAux (c :: cur) rest

/-- JavaScript `association.split('.')`. -/
def splitDots (association : String) : List String :=
  splitDotsAux [] association.data

/-- Joining segments with `'.'` (JavaScript `segments.join('.')`). -/
def joinDots : List String → String
  | [] => ""
  | [x] => x
  | x :: rest => x ++ "." ++ joinDots rest

/-- Modelled from the spec: `ModelQuery#_associationForEach` (helpers mixin,
not among the provided sources) iterates the cumulative key-path prefixes of
a dotted association string; each prefix is paired here with its segment
list. -/
def prefixesOf (association : String) : List (String × List String) :=
  let segs := splitDots association
  (List.range segs.length).map
    (fun i => (joinDots (segs.take (i + 1)), segs.take (i + 1)))

/-- The iteration inside `ModelQuery#_joinAssociation`: for each key-path
prefix, look up its relation on the original query's model and join it onto
the accumulating duplicate, threading the previous prefix as `through`. -/
def joinAssociationGo (env : Env) (origModel : ModelInfo) :
    List (String × List String) → Option String → Store → Nat →
    Option (Store × Nat)
  | [], _, st, cur => some (st, cur)
  | (key, segs) :: rest, through, st, cur =>
    match lookupRelation env origModel segs with
    | none => none
    | some rel =>
      match joinRelationOp st cur key through rel with
      | none => none
      | some (st', nid) => joinAssociationGo env origModel rest (some key) st' nid

/-- `ModelQuery#_joinAssociation` (`src/lib/query/model_join.js` lines
70-85): duplicates the query, then joins every key-path prefix of the
association string in order. -/
def joinAssociationOp (env : Env) (s : Store) (qid : Nat)
    (association : String) : Option (Store × Nat) :=
  match s.queries[qid]? with
  | none => none
  | some q =>
    match dupOp s qid with
    | none => none
    | some (s₀, did) =>
      joinAssociationGo env q.model (prefixesOf association) none s₀ did

/-- `ModelQuery#join` (`src/lib/query/model_join.js` lines 58-62): exactly
one argument dispatches to `_joinAssociation`; otherwise the superclass join
is used.  A single non-string argument fails in `_joinAssociation`'s path
iteration. -/
def modelJoin (env : Env) (s : Store) (qid : Nat) (args : List JoinArg) :
    Option (Store × Nat) :=
  match args with
  | [JoinArg.str a] => joinAssociationOp env s qid a
  | [_] => none
  | _ => superJoin s qid args

/-- `BaseQuery#execute` (`src/lib/query/base.js` lines 233-243): on first
call flips `_executed`, invokes the adapter (modelled by bumping
`adapterCalls` and settling the result slot with the adapter's response
`av`), and resolves the query's single deferred; later calls return the same
deferred untouched.  Returns the promise identity the caller observes. -/
def executeOp (av : Nat) (s : Store) (qid : Nat) : Option (Store × Nat) :=
  match s.queries[qid]? with
  | none => none
  | some q =>
    if q.executed then some (s, q.pid)
    else
      some ({ s with
                queries := s.queries.set qid
                  { q with executed := true, result := some av },
                adapterCalls := s.adapterCalls + 1 },
            q.pid)

/-- `BaseQuery#then` (`src/lib/query/base.js` lines 252-254): delegates to
`execute()`. -/
def thenOp (av : Nat) (s : Store) (qid : Nat) : Option (Store × Nat) :=
  executeOp av s qid

/-- Repeated execution of the same query instance, collecting the promise
identity observed by each call. -/
def executeTimes (av : Nat) (qid : Nat) :
    Nat → Store → Option (Store × List Nat)
  | 0, s => some (s, [])
  | n + 1, s =>
    match executeOp av s qid with
    | none => none
    | some (s', p) =>
      match executeTimes av qid n s' with
      | none => none
      | some (s'', ps) => some (s'', p :: ps)

/-! ### Helper observations and claim-level statements -/

/-- The single map-mutation statement `query._joinedRelations[k] = v`
(as performed on the fresh duplicate inside `_joinRelation`), applied to
query instance `i` of the store. -/
def jrAssign (s : Store) (i : Nat) (k : String) (v : JoinDetails) : Store :=
  match s.queries[i]? with
  | none => s
  | some q => setQ s i { q with joinedRelations := jrSet q.joinedRelations k v }

/-- The state of the query instance an operation returned. -/
def resultQuery (r : Option (Store × Nat)) : Option QueryState :=
  r.bind (fun p => p.1.queries[p.2]?)

/-- Whether `pat` occurs as a contiguous sublist (JavaScript
`indexOf !== -1`). -/
def occurs (pat : List Char) : List Char → Bool
  | [] => false
  | c :: rest => pat.isPrefixOf (c :: rest) || occurs pat rest

/-- A belongs-to relation declared without any explicit options. -/
def btDefault (name cls : String) : BelongsToState :=
  belongsToInit name cls ⟨none, none, none⟩

/-- An operation's result leaves the parent query's stored state untouched
and designates a different instance. -/
def opPreservesParent (s : Store) (qid : Nat) (r : Store × Nat) : Prop :=
  r.1.queries[qid]? = s.queries[qid]? ∧ r.2 ≠ qid

/-- Frame property of every chaining/duplication operation on query `qid`:
each returns a distinct new instance, leaves the parent's state (and hence
anything rendered from it) unchanged, and mutating the duplicate's
joined-relations map never affects the parent. -/
def C1Frame (s : Store) (qid : Nat) : Prop :=
  (∀ r ∈ dupOp s qid, opPreservesParent s qid r) ∧
  (∀ r ∈ cloneOp s qid, opPreservesParent s qid r) ∧
  (∀ r ∈ spawnOp s qid, opPreservesParent s qid r) ∧
  (∀ name through rel, ∀ r ∈ joinRelationOp s qid name through rel,
    opPreservesParent s qid r) ∧
  (∀ env association, ∀ r ∈ joinAssociationOp env s qid association,
    opPreservesParent s qid r ∧
      ∀ render : QueryState → Statement,
        (r.1.queries[qid]?).map render = (s.queries[qid]?).map render) ∧
  (∀ env args, ∀ r ∈ modelJoin env s qid args, opPreservesParent s qid r) ∧
  (∀ r ∈ dupOp s qid, ∀ k v,
    (jrAssign r.1 r.2 k v).queries[qid]? = s.queries[qid]?)

/-- Execute-once outcome for a not-yet-executed query `qid` holding state
`q`: `1 + n` consecutive `execute()` calls make exactly one adapter
invocation, every call observes the same deferred (`q.pid`), the query's
slot ends up settled with the adapter's response, and `then` delegates to
`execute`. -/
def ExecuteOnceOutcome (av : Nat) (s : Store) (qid : Nat) (q : QueryState)
    (n : Nat) : Prop :=
  (∃ s₁, executeTimes av qid (n + 1) s = some (s₁, List.replicate (n + 1) q.pid) ∧
    s₁.adapterCalls = s.adapterCalls + 1 ∧
    s₁.queries[qid]? = some { q with executed := true, result := some av }) ∧
  (∀ s' : Store, thenOp av s' qid = executeOp av s' qid)

/-! ### Concrete fixtures -/

/-- A model registry with `Article belongsTo user as author` and
`Article belongsTo user as reviewer` (both resolving to table `users`). -/
def exUserModel : ModelInfo := ⟨"user", "users", []⟩

/-- The `author` relation: articles → users. -/
def exAuthorRel : Relation := ⟨"author", "articles", "user", "users"⟩

/-- The `reviewer` relation: articles → users. -/
def exReviewerRel : Relation := ⟨"reviewer", "articles", "user", "users"⟩

/-- The article model with its two user-valued relations. -/
def exArticleModel : ModelInfo :=
  ⟨"article", "articles",
   [("author", exAuthorRel), ("reviewer", exReviewerRel)]⟩

/-- Registry for the article/user fixtures. -/
def exEnv : Env := [("article", exArticleModel), ("user", exUserModel)]

/-- A fresh model query on `articles`. -/
def exQuery : QueryState := ⟨exArticleModel, [], [], false, 0, none⟩

/-- Store holding just the fresh article query. -/
def exStore : Store := ⟨[exQuery], 1, 0⟩

/-- An article query that has already executed and settled. -/
def exExecutedQuery : QueryState := ⟨exArticleModel, [], [], true, 0, some 7⟩

/-- Store holding the already-executed query (one adapter call made). -/
def exExecutedStore : Store := ⟨[exExecutedQuery], 1, 1⟩

/-- Concrete inflection helpers for witnesses: drop-last-character
singularisation, `++ "s"` pluralisation, identity case conversion. -/
def exInflector : Inflector :=
  ⟨fun s => String.mk s.data.dropLast, fun s => s ++ "s",
   fun s => s, fun s => s, fun s => s⟩

/-- A concrete base translator assigning every predicate a generic fragment
and transform chain. -/
def exBasePredicate : String → Predicate := fun n => ⟨"%s = %s", [n]⟩

/-! ## Theorems -/

/-- **C8.** Accessing the `statement` property on the abstract base query
type (no concrete rendering logic bound) always yields the
"BaseQuery cannot be used directly." error and never a `Statement`. -/
theorem c8_base_statement_throws :
    ∀ structuralState : String,
      statementProperty baseQueryType structuralState =
        Except.error "BaseQuery cannot be used directly." ∧
      ∀ stmt : Statement,
        statementProperty baseQueryType structuralState ≠ Except.ok stmt := by
  intro st
  constructor
  · rfl
  · intro stmt h
    exact Except.noConfusion h

/-- **C8 witness.** The error at a concrete structural state. -/
theorem c8_base_statement_throws_witness :
    statementProperty baseQueryType "select" =
      Except.error "BaseQuery cannot be used directly." ∧
    ∀ stmt : Statement,
      statementProperty baseQueryType "select" ≠ Except.ok stmt :=
  c8_base_statement_throws "select"

/-- **C9.** Under the MySQL translator, `contains` renders with the
`%s LIKE BINARY %s` fragment and `iContains` with `%s LIKE %s`, both using
the like/contains value transformation; every predicate name without an
override falls back to the shared base translator's behaviour. -/
theorem c9_mysql_contains_override (base : String → Predicate) :
    (mysqlPredicateFor base "contains").format = "%s LIKE BINARY %s" ∧
    (mysqlPredicateFor base "contains").valueTransforms = ["like", "contains"] ∧
    (mysqlPredicateFor base "iContains").format = "%s LIKE %s" ∧
    (mysqlPredicateFor base "iContains").valueTransforms =
      ["like", "contains"] ∧
    (∀ name, name ∉ mysqlOverriddenPredicates →
      mysqlPredicateFor base name = base name) := by
  refine ⟨rfl, rfl, rfl, rfl, ?_⟩
  intro name hname
  simp only [mysqlOverriddenPredicates, List.mem_cons, List.not_mem_nil,
    or_false, not_or] at hname
  obtain ⟨h1, h2, h3, h4, h5, h6, h7, h8, h9, h10⟩ := hname
  simp only [mysqlPredicateFor, if_neg h1, if_neg h2, if_neg h3, if_neg h4,
    if_neg h5, if_neg h6, if_neg h7, if_neg h8, if_neg h9, if_neg h10]

/-- **C9 witness.** The override/fallback facts at a concrete base
translator, including fallback at the non-overridden name `exact`. -/
theorem c9_mysql_contains_override_witness :
    (mysqlPredicateFor exBasePredicate "contains").format =
      "%s LIKE BINARY %s" ∧
    (mysqlPredicateFor exBasePredicate "contains").valueTransforms =
      ["like", "contains"] ∧
    (mysqlPredicateFor exBasePredicate "iContains").format = "%s LIKE %s" ∧
    (mysqlPredicateFor exBasePredicate "iContains").valueTransforms =
      ["like", "contains"] ∧
    (∀ name, name ∉ mysqlOverriddenPredicates →
      mysqlPredicateFor exBasePredicate name = exBasePredicate name) :=
  c9_mysql_contains_override exBasePredicate

/-- **C5.** For a belongs-to relation declared without explicit options, the
foreign key first evaluates to `snakeCase(name ++ "_id")`, the primary key
to `"id"` and the inverse to the pluralized camel-cased owning-class name;
each access stores the computed value in the relation's cache, and any later
access returns the cached value unchanged — whatever the options object,
owning class or inflection helpers look like by then.  (The hypotheses state
that the conventional values are JavaScript-truthy, which holds for the real
inflection helpers.) -/
theorem c5_belongs_to_lazy_defaults (infl : Inflector) (name cls : String)
    (hinv : infl.pluralize (infl.camelCase cls) ≠ "")
    (hfk : infl.snakeCase (name ++ "_id") ≠ "") :
    (foreignKeyGet infl (btDefault name cls)).1 =
      infl.snakeCase (name ++ "_id") ∧
    (primaryKeyGet (btDefault name cls)).1 = "id" ∧
    (inverseGet infl (btDefault name cls)).1 =
      infl.pluralize (infl.camelCase cls) ∧
    (foreignKeyGet infl (btDefault name cls)).2.foreignKeyCache =
      some (infl.snakeCase (name ++ "_id")) ∧
    (primaryKeyGet (btDefault name cls)).2.primaryKeyCache = some "id" ∧
    (inverseGet infl (btDefault name cls)).2.inverseCache =
      some (infl.pluralize (infl.camelCase cls)) ∧
    (∀ (st : BelongsToState) (v : String), v ≠ "" →
      st.foreignKeyCache = some v →
      ∀ infl' : Inflector, foreignKeyGet infl' st = (v, st)) ∧
    (∀ (st : BelongsToState) (v : String), v ≠ "" →
      st.primaryKeyCache = some v → primaryKeyGet st = (v, st)) ∧
    (∀ (st : BelongsToState) (v : String), v ≠ "" →
      st.inverseCache = some v →
      ∀ infl' : Inflector, inverseGet infl' st = (v, st)) ∧
    (∀ (opts' : BelongsToOptions) (cls' name' : String) (infl' : Inflector),
      (inverseGet infl'
        { (inverseGet infl (btDefault name cls)).2 with
            options := opts', modelClassName := cls', name := name' }).1 =
        infl.pluralize (infl.camelCase cls) ∧
      (foreignKeyGet infl'
        { (foreignKeyGet infl (btDefault name cls)).2 with
            options := opts', modelClassName := cls', name := name' }).1 =
        infl.snakeCase (name ++ "_id") ∧
      (primaryKeyGet
        { (primaryKeyGet (btDefault name cls)).2 with
            options := opts', modelClassName := cls', name := name' }).1 =
        "id") := by
  have hfalse : ∀ v : String, v ≠ "" → jsFalsy (some v) = false := by
    intro v hv
    simp only [jsFalsy, beq_eq_false_iff_ne, ne_eq, hv, not_false_iff]
  have hid : ("id" : String) ≠ "" := by decide
  refine ⟨?_, ?_, ?_, ?_, ?_, ?_, ?_, ?_, ?_, ?_⟩
  · simp [foreignKeyGet, btDefault, belongsToInit, jsFalsy, jsOr]
  · simp [primaryKeyGet, btDefault, belongsToInit, jsFalsy, jsOr]
  · simp [inverseGet, btDefault, belongsToInit, jsFalsy, jsOr]
  · simp [foreignKeyGet, btDefault, belongsToInit, jsFalsy, jsOr]
  · simp [primaryKeyGet, btDefault, belongsToInit, jsFalsy, jsOr]
  · simp [inverseGet, btDefault, belongsToInit, jsFalsy, jsOr]
  · intro st v hv hc infl'
    simp [foreignKeyGet, hc, hfalse v hv]
  · intro st v hv hc
    simp [primaryKeyGet, hc, hfalse v hv]
  · intro st v hv hc infl'
    simp [inverseGet, hc, hfalse v hv]
  · intro opts' cls' name' infl'
    refine ⟨?_, ?_, ?_⟩
    · simp [inverseGet, btDefault, belongsToInit, jsFalsy, jsOr,
        hfalse _ hinv, hinv]
    · simp [foreignKeyGet, btDefault, belongsToInit, jsFalsy, jsOr,
        hfalse _ hfk, hfk]
    · simp [primaryKeyGet, btDefault, belongsToInit, jsFalsy, jsOr,
        hfalse _ hid]

/-- **C5 witness.** The lazy-default behaviour at a concrete relation
(`author` on class `Article`) with concrete inflection helpers. -/
theorem c5_belongs_to_lazy_defaults_witness :
    exInflector.pluralize (exInflector.camelCase "Article") ≠ "" ∧
    exInflector.snakeCase ("author" ++ "_id") ≠ "" ∧
    (foreignKeyGet exInflector (btDefault "author" "Article")).1 =
      exInflector.snakeCase ("author" ++ "_id") :=
  ⟨by decide, by decide,
   (c5_belongs_to_lazy_defaults exInflector "author" "Article"
     (by decide) (by decide)).1⟩

theorem data_replaceFirst (s pat repl : String) :
    (replaceFirst s pat repl).data = replaceFirstAux pat.data repl.data s.data :=
  rfl

theorem replaceFirstAux_append_of_all_ne (p1 : Char) (pt repl l r : List Char)
    (hl : ∀ c ∈ l, c ≠ p1) :
    replaceFirstAux (p1 :: pt) repl (l ++ r) =
      l ++ replaceFirstAux (p1 :: pt) repl r := by
  induction l with
  | nil => rfl
  | cons c l ih =>
    have hc : (p1 == c) = false := by
      have := hl c (by simp)
      simp [beq_eq_false_iff_ne, Ne.symm this]
    have hpre : (p1 :: pt).isPrefixOf (c :: (l ++ r)) = false := by
      simp [List.isPrefixOf, hc]
    simpa [replaceFirstAux, hpre] using ih (fun c hcl => hl c (by simp [hcl]))

theorem replaceFirstAux_head_match (p1 : Char) (pt repl r : List Char) :
    replaceFirstAux (p1 :: pt) repl ((p1 :: pt) ++ r) = repl ++ r := by
  have hpre : (p1 :: pt).isPrefixOf ((p1 :: pt) ++ r) = true := by
    simp [List.isPrefixOf_iff_prefix]
  show replaceFirstAux (p1 :: pt) repl (p1 :: (pt ++ r)) = repl ++ r
  rw [replaceFirstAux]
  simp only [show p1 :: (pt ++ r) = (p1 :: pt) ++ r from rfl, hpre, if_true]
  simp [List.drop_left]

theorem replaceFirstAux_first_occurrence (p1 : Char) (pt repl l r : List Char)
    (hl : ∀ c ∈ l, c ≠ p1) :
    replaceFirstAux (p1 :: pt) repl (l ++ ((p1 :: pt) ++ r)) =
      l ++ repl ++ r := by
  rw [replaceFirstAux_append_of_all_ne p1 pt repl l _ hl,
    replaceFirstAux_head_match, List.append_assoc]

theorem occurs_append_of_all_ne (p1 : Char) (pt l r : List Char)
    (hl : ∀ c ∈ l, c ≠ p1) :
    occurs (p1 :: pt) (l ++ r) = occurs (p1 :: pt) r := by
  induction l with
  | nil => rfl
  | cons c l ih =>
    have hc : (p1 == c) = false := by
      have := hl c (by simp)
      simp [beq_eq_false_iff_ne, Ne.symm this]
    have hpre : (p1 :: pt).isPrefixOf (c :: (l ++ r)) = false := by
      simp [List.isPrefixOf, hc]
    simpa [occurs, hpre] using ih (fun c hcl => hl c (by simp [hcl]))

theorem occurs_eq_false_of_all_ne (p1 : Char) (pt l : List Char)
    (hl : ∀ c ∈ l, c ≠ p1) : occurs (p1 :: pt) l = false := by
  have := occurs_append_of_all_ne p1 pt l [] hl
  simpa [occurs] using this

theorem replaceFirstAux_eq_of_occurs_false (pat repl l : List Char)
    (h : occurs pat l = false) : replaceFirstAux pat repl l = l := by
  induction l with
  | nil => rfl
  | cons c l ih =>
    rw [occurs, Bool.or_eq_false_iff] at h
    rw [replaceFirstAux, if_neg (by simp [h.1]), ih h.2]

theorem occurs_false_composite (c2 : Char) (pt l t b : List Char)
    (hl : ∀ c ∈ l, c ≠ '<') (ht : ∀ c ∈ t, c ≠ '<') (hb : ∀ c ∈ b, c ≠ '<')
    (hc : (c2 == 's') = false) :
    occurs ('<' :: c2 :: pt) (l ++ ('<' :: 's' :: t) ++ b) = false := by
  rw [List.append_assoc, occurs_append_of_all_ne '<' (c2 :: pt) l _ hl]
  show occurs ('<' :: c2 :: pt) ('<' :: ('s' :: t ++ b)) = false
  have hpre : ('<' :: c2 :: pt).isPrefixOf ('<' :: ('s' :: t ++ b)) = false := by
    simp [List.isPrefixOf, hc]
  have hrest : occurs ('<' :: c2 :: pt) ('s' :: t ++ b) = false := by
    rw [show ('s' :: t ++ b) = ('s' :: t) ++ b from rfl,
      occurs_append_of_all_ne '<' (c2 :: pt) ('s' :: t) b]
    · exact occurs_eq_false_of_all_ne '<' (c2 :: pt) b hb
    · intro c hcm
      rcases List.mem_cons.mp hcm with h | h
      · simp [h]
      · exact ht c h
  have hstep : occurs ('<' :: c2 :: pt) ('<' :: ('s' :: t ++ b)) =
      (('<' :: c2 :: pt).isPrefixOf ('<' :: ('s' :: t ++ b)) ||
        occurs ('<' :: c2 :: pt) ('s' :: t ++ b)) := rfl
  rw [hstep, hpre, hrest]
  rfl

/-- **C10.** `BaseRelation#template` substitutes only the first occurrence
of each placeholder: in a string containing `<singular>` twice (with no `<`
elsewhere), the first occurrence is replaced by the singularized relation
name and the second occurrence survives verbatim in the generated member
name. -/
theorem c10_template_replaces_first_occurrence_only (infl : Inflector)
    (relationName p m b : String)
    (hp : ∀ c ∈ p.data, c ≠ '<') (hm : ∀ c ∈ m.data, c ≠ '<')
    (hb : ∀ c ∈ b.data, c ≠ '<')
    (hsing : ∀ c ∈ (infl.singularize relationName).data, c ≠ '<') :
    template infl relationName
        (p ++ "<singular>" ++ m ++ "<singular>" ++ b) =
      p ++ infl.singularize relationName ++ m ++ "<singular>" ++ b := by
  apply String.ext
  have e1 : ("<singular>" : String).data = '<' :: 's' :: "ingular>".data := rfl
  have hmid : ∀ c ∈ ("ingular>" : String).data, c ≠ '<' := by decide
  -- the string after the first (successful) replacement
  have step1 :
      replaceFirstAux ("<singular>" : String).data
          (infl.singularize relationName).data
          ((p ++ "<singular>" ++ m ++ "<singular>" ++ b) : String).data =
        (p ++ infl.singularize relationName ++ m ++ "<singular>" ++ b).data := by
    simp only [String.data_append, e1]
    rw [show p.data ++ ('<' :: 's' :: ("ingular>" : String).data) ++ m.data ++
          ('<' :: 's' :: ("ingular>" : String).data) ++ b.data =
        p.data ++ (('<' :: 's' :: ("ingular>" : String).data) ++
          (m.data ++ ('<' :: 's' :: ("ingular>" : String).data) ++ b.data)) by
      simp [List.append_assoc]]
    rw [replaceFirstAux_first_occurrence '<' _ _ _ _ hp]
    simp [List.append_assoc]
  have hnoc : ∀ (c2 : Char) (pt : List Char), (c2 == 's') = false →
      occurs ('<' :: c2 :: pt)
        ((p ++ infl.singularize relationName ++ m ++ "<singular>" ++ b) :
          String).data = false := by
    intro c2 pt hc2
    simp only [String.data_append, e1]
    rw [show p.data ++ (infl.singularize relationName).data ++ m.data ++
          ('<' :: 's' :: ("ingular>" : String).data) ++ b.data =
        (p.data ++ (infl.singularize relationName).data ++ m.data) ++
          ('<' :: 's' :: ("ingular>" : String).data) ++ b.data by
      simp [List.append_assoc]]
    refine occurs_false_composite c2 pt _ _ _ ?_ hmid hb hc2
    intro c hcm
    rcases List.mem_append.mp hcm with hcm | hcm
    · rcases List.mem_append.mp hcm with hcm | hcm
      · exact hp c hcm
      · exact hsing c hcm
    · exact hm c hcm
  show (template infl relationName
      (p ++ "<singular>" ++ m ++ "<singular>" ++ b)).data = _
  simp only [template, data_replaceFirst]
  rw [step1]
  rw [replaceFirstAux_eq_of_occurs_false _ _ _
      (hnoc 'S' ("ingular>" : String).data (by decide))]
  rw [replaceFirstAux_eq_of_occurs_false _ _ _
      (hnoc 'p' ("lural>" : String).data (by decide))]
  rw [replaceFirstAux_eq_of_occurs_false _ _ _
      (hnoc 'P' ("lural>" : String).data (by decide))]

/-- **C10 witness.** With concrete inflection helpers and relation name
`articles`, `save<singular>X<singular>Y` keeps its second `<singular>`
occurrence verbatim. -/
theorem c10_template_replaces_first_occurrence_only_witness :
    (∀ c ∈ ("save" : String).data, c ≠ '<') ∧
    (∀ c ∈ ("X" : String).data, c ≠ '<') ∧
    (∀ c ∈ ("Y" : String).data, c ≠ '<') ∧
    (∀ c ∈ (exInflector.singularize "articles").data, c ≠ '<') ∧
    template exInflector "articles"
        ("save" ++ "<singular>" ++ "X" ++ "<singular>" ++ "Y") =
      "save" ++ exInflector.singularize "articles" ++ "X" ++ "<singular>" ++ "Y" :=
  ⟨by decide, by decide, by decide, by decide,
   c10_template_replaces_first_occurrence_only exInflector "articles"
     "save" "X" "Y" (by decide) (by decide) (by decide) (by decide)⟩

theorem getElem?_lt_length {α : Type} {l : List α} {i : Nat} {a : α}
    (h : l[i]? = some a) : i < l.length := by
  rcases List.getElem?_eq_some.mp h with ⟨hlt, _⟩
  exact hlt

theorem executeOp_of_executed (av : Nat) (s : Store) (qid : Nat)
    (q : QueryState) (hq : s.queries[qid]? = some q)
    (hx : q.executed = true) : executeOp av s qid = some (s, q.pid) := by
  simp [executeOp, hq, hx]

theorem executeOp_of_fresh (av : Nat) (s : Store) (qid : Nat)
    (q : QueryState) (hq : s.queries[qid]? = some q)
    (hx : q.executed = false) :
    executeOp av s qid =
      some ({ s with
                queries := s.queries.set qid
                  { q with executed := true, result := some av },
                adapterCalls := s.adapterCalls + 1 },
            q.pid) := by
  simp [executeOp, hq, hx]

theorem executeTimes_of_executed (av : Nat) (qid : Nat) (n : Nat)
    (s : Store) (q : QueryState) (hq : s.queries[qid]? = some q)
    (hx : q.executed = true) :
    executeTimes av qid n s = some (s, List.replicate n q.pid) := by
  induction n with
  | zero => simp [executeTimes]
  | succ n ih =>
    simp [executeTimes, executeOp_of_executed av s qid q hq hx, ih,
      List.replicate_succ]

/-- **C2.** Executing the same query instance any positive number of times
(`then` included, which delegates to `execute`) makes exactly one adapter
invocation: the first call flips the `_executed` flag and settles the
query's single deferred with the adapter response, and every call — before
or after that settling — observes the same deferred outcome. -/
theorem c2_execute_once_caching (av : Nat) (s : Store) (qid : Nat)
    (q : QueryState) (hq : s.queries[qid]? = some q)
    (hx : q.executed = false) (n : Nat) :
    ExecuteOnceOutcome av s qid q n := by
  have hqlt : qid < s.queries.length := getElem?_lt_length hq
  have hset : (s.queries.set qid
      { q with executed := true, result := some av })[qid]? =
        some { q with executed := true, result := some av } :=
    List.getElem?_set_eq_of_lt _ hqlt
  constructor
  · refine ⟨{ s with
        queries := s.queries.set qid
          { q with executed := true, result := some av },
        adapterCalls := s.adapterCalls + 1 }, ?_, rfl, ?_⟩
    · have h1 := executeOp_of_fresh av s qid q hq hx
      have h2 := executeTimes_of_executed av qid n
        { s with
            queries := s.queries.set qid
              { q with executed := true, result := some av },
            adapterCalls := s.adapterCalls + 1 }
        { q with executed := true, result := some av } hset rfl
      simp [executeTimes, h1, h2, List.replicate_succ]
    · exact hset
  · intro s'
    rfl

/-- **C2 witness.** Three consecutive executions of the fresh example query
make one adapter call and all observe deferred `0`. -/
theorem c2_execute_once_caching_witness :
    exStore.queries[0]? = some exQuery ∧ exQuery.executed = false ∧
    ExecuteOnceOutcome 42 exStore 0 exQuery 2 :=
  ⟨rfl, rfl, c2_execute_once_caching 42 exStore 0 exQuery rfl rfl 2⟩

/-- **C7.** `clone` duplicates a query with the executed flag reset and a
fresh pending deferred (new promise identity, empty result slot), so
executing the clone contacts the adapter anew even though the executed
parent's own `execute` returns its cached outcome without a further adapter
call. -/
theorem c7_clone_resets_execution (av : Nat) (s : Store) (qid : Nat)
    (q : QueryState) (hq : s.queries[qid]? = some q)
    (hx : q.executed = true) (hpid : q.pid < s.nextPid) :
    ∃ s₁ nid, cloneOp s qid = some (s₁, nid) ∧
      s₁.queries[nid]? =
        some { q with executed := false, pid := s.nextPid, result := none } ∧
      s.nextPid ≠ q.pid ∧
      executeOp av s qid = some (s, q.pid) ∧
      (∃ s₂, executeOp av s₁ nid = some (s₂, s.nextPid) ∧
        s₂.adapterCalls = s₁.adapterCalls + 1 ∧
        s₁.adapterCalls = s.adapterCalls) := by
  refine ⟨{ s with
      queries := s.queries ++
        [{ q with executed := false, pid := s.nextPid, result := none }],
      nextPid := s.nextPid + 1 }, s.queries.length, ?_, ?_, ?_, ?_, ?_⟩
  · simp [cloneOp, dupOp, hq]
  · exact List.getElem?_concat_length _ _
  · exact Nat.ne_of_gt hpid
  · exact executeOp_of_executed av s qid q hq hx
  · refine ⟨_, executeOp_of_fresh av _ s.queries.length
      { q with executed := false, pid := s.nextPid, result := none }
      (List.getElem?_concat_length _ _) rfl, rfl, rfl⟩

/-- **C7 witness.** Cloning the already-executed example query and executing
the clone contacts the adapter again. -/
theorem c7_clone_resets_execution_witness :
    exExecutedStore.queries[0]? = some exExecutedQuery ∧
    exExecutedQuery.executed = true ∧
    exExecutedQuery.pid < exExecutedStore.nextPid ∧
    (∃ s₁ nid, cloneOp exExecutedStore 0 = some (s₁, nid) ∧
      s₁.queries[nid]? =
        some { exExecutedQuery with
                 executed := false
                 pid := exExecutedStore.nextPid
                 result := none } ∧
      exExecutedStore.nextPid ≠ exExecutedQuery.pid ∧
      executeOp 9 exExecutedStore 0 =
        some (exExecutedStore, exExecutedQuery.pid) ∧
      (∃ s₂, executeOp 9 s₁ nid = some (s₂, exExecutedStore.nextPid) ∧
        s₂.adapterCalls = s₁.adapterCalls + 1 ∧
        s₁.adapterCalls = exExecutedStore.adapterCalls)) :=
  ⟨rfl, rfl, by decide,
   c7_clone_resets_execution 9 exExecutedStore 0 exExecutedQuery rfl rfl
     (by decide)⟩

theorem set_concat_length {α : Type} (l : List α) (x y : α) :
    (l ++ [x]).set l.length y = l ++ [y] := by
  rw [List.set_append]
  simp

theorem dupOp_eq (s : Store) (qid : Nat) (q : QueryState)
    (hq : s.queries[qid]? = some q) :
    dupOp s qid =
      some ({ s with
                queries := s.queries ++
                  [{ q with executed := false, pid := s.nextPid, result := none }],
                nextPid := s.nextPid + 1 },
            s.queries.length) := by
  simp [dupOp, hq]

theorem spawnOp_eq (s : Store) (qid : Nat) (q : QueryState)
    (hq : s.queries[qid]? = some q) :
    spawnOp s qid =
      some ({ s with
                queries := s.queries ++
                  [{ q with
                       executed := false
                       pid := s.nextPid
                       result := none
                       joinedRelations := [] }],
                nextPid := s.nextPid + 1 },
            s.queries.length) := by
  simp [spawnOp, hq]

theorem joinRawOp_eq (s : Store) (qid : Nat) (q : QueryState)
    (t a k : String) (c : JoinPredicate) (hq : s.queries[qid]? = some q) :
    joinRawOp s qid t a k c =
      some ({ s with
                queries := s.queries ++
                  [{ q with
                       executed := false
                       pid := s.nextPid
                       result := none
                       joins := q.joins ++ [⟨t, a, k, c⟩] }],
                nextPid := s.nextPid + 1 },
            s.queries.length) := by
  rw [joinRawOp, dupOp_eq s qid q hq]
  simp [setQ, List.getElem?_concat_length, set_concat_length]

theorem joinRelationOp_eq_plain (s : Store) (qid : Nat) (q : QueryState)
    (name : String) (through : Option String) (rel : Relation)
    (hq : s.queries[qid]? = some q)
    (hTab : tableInQuery q rel.relatedTableName = false) :
    joinRelationOp s qid name through rel =
      some ({ s with
                queries := s.queries ++
                  [{ q with
                       executed := false
                       pid := s.nextPid
                       result := none
                       joins := q.joins ++
                         [⟨rel.relatedTableName, rel.relatedTableName, "inner",
                           joinCondition rel (joinBaseTable q through rel)
                             rel.relatedTableName⟩]
                       joinedRelations :=
                         jrSet q.joinedRelations name
                           ⟨rel.relatedTableName, rel⟩ }],
                nextPid := s.nextPid + 1 },
            s.queries.length) := by
  rw [joinRelationOp]
  simp only [hq, hTab, Bool.false_eq_true, if_false]
  rw [show superJoin s qid
      [JoinArg.str rel.relatedTableName, JoinArg.str "inner",
        JoinArg.cnd (joinCondition rel (joinBaseTable q through rel)
          rel.relatedTableName)] =
      joinRawOp s qid rel.relatedTableName rel.relatedTableName "inner"
        (joinCondition rel (joinBaseTable q through rel)
          rel.relatedTableName) from rfl]
  rw [joinRawOp_eq s qid q _ _ _ _ hq]
  simp [setQ, List.getElem?_concat_length, set_concat_length]

theorem joinRelationOp_eq_aliased (s : Store) (qid : Nat) (q : QueryState)
    (name : String) (through : Option String) (rel : Relation) (a : String)
    (hq : s.queries[qid]? = some q)
    (hTab : tableInQuery q rel.relatedTableName = true)
    (hA : uniqueTableAlias q rel.name = some a) :
    joinRelationOp s qid name through rel =
      some ({ s with
                queries := s.queries ++
                  [{ q with
                       executed := false
                       pid := s.nextPid
                       result := none
                       joins := q.joins ++
                         [⟨rel.relatedTableName, a, "inner",
                           joinCondition rel (joinBaseTable q through rel) a⟩]
                       joinedRelations :=
                         jrSet q.joinedRelations name ⟨a, rel⟩ }],
                nextPid := s.nextPid + 1 },
            s.queries.length) := by
  rw [joinRelationOp]
  simp only [hq, hTab, if_true, hA]
  rw [show superJoin s qid
      [JoinArg.tbl rel.relatedTableName a, JoinArg.str "inner",
        JoinArg.cnd (joinCondition rel (joinBaseTable q through rel) a)] =
      joinRawOp s qid rel.relatedTableName a "inner"
        (joinCondition rel (joinBaseTable q through rel) a) from rfl]
  rw [joinRawOp_eq s qid q _ _ _ _ hq]
  simp [setQ, List.getElem?_concat_length, set_concat_length]

theorem joinRelationOp_frame (s : Store) (qid : Nat) (name : String)
    (through : Option String) (rel : Relation) :
    ∀ r ∈ joinRelationOp s qid name through rel,
      (∀ i, i < s.queries.length → r.1.queries[i]? = s.queries[i]?) ∧
      r.2 = s.queries.length ∧
      r.1.queries.length = s.queries.length + 1 := by
  intro r hr
  rw [Option.mem_def] at hr
  cases hq : s.queries[qid]? with
  | none =>
    rw [joinRelationOp] at hr
    simp only [hq] at hr
    exact Option.noConfusion hr
  | some q =>
    cases hTab : tableInQuery q rel.relatedTableName with
    | false =>
      rw [joinRelationOp_eq_plain s qid q name through rel hq hTab] at hr
      obtain rfl : _ = r := Option.some.inj hr
      refine ⟨?_, rfl, by simp⟩
      intro i hi
      exact List.getElem?_append_left hi
    | true =>
      cases hA : uniqueTableAlias q rel.name with
      | none =>
        rw [joinRelationOp] at hr
        simp only [hq, hTab, if_true, hA] at hr
        exact Option.noConfusion hr
      | some a =>
        rw [joinRelationOp_eq_aliased s qid q name through rel a hq hTab hA]
          at hr
        obtain rfl : _ = r := Option.some.inj hr
        refine ⟨?_, rfl, by simp⟩
        intro i hi
        exact List.getElem?_append_left hi

theorem dupOp_frame (s : Store) (qid : Nat) :
    ∀ r ∈ dupOp s qid,
      (∀ i, i < s.queries.length → r.1.queries[i]? = s.queries[i]?) ∧
      r.2 = s.queries.length ∧
      r.1.queries.length = s.queries.length + 1 := by
  intro r hr
  rw [Option.mem_def] at hr
  cases hq : s.queries[qid]? with
  | none => rw [dupOp, hq] at hr; exact Option.noConfusion hr
  | some q =>
    rw [dupOp_eq s qid q hq] at hr
    obtain rfl : _ = r := Option.some.inj hr
    refine ⟨?_, rfl, by simp⟩
    intro i hi
    exact List.getElem?_append_left hi

theorem spawnOp_frame (s : Store) (qid : Nat) :
    ∀ r ∈ spawnOp s qid,
      (∀ i, i < s.queries.length → r.1.queries[i]? = s.queries[i]?) ∧
      r.2 = s.queries.length ∧
      r.1.queries.length = s.queries.length + 1 := by
  intro r hr
  rw [Option.mem_def] at hr
  cases hq : s.queries[qid]? with
  | none => rw [spawnOp, hq] at hr; exact Option.noConfusion hr
  | some q =>
    rw [spawnOp_eq s qid q hq] at hr
    obtain rfl : _ = r := Option.some.inj hr
    refine ⟨?_, rfl, by simp⟩
    intro i hi
    exact List.getElem?_append_left hi

theorem joinRawOp_frame (s : Store) (qid : Nat) (t a k : String)
    (c : JoinPredicate) :
    ∀ r ∈ joinRawOp s qid t a k c,
      (∀ i, i < s.queries.length → r.1.queries[i]? = s.queries[i]?) ∧
      r.2 = s.queries.length ∧
      r.1.queries.length = s.queries.length + 1 := by
  intro r hr
  rw [Option.mem_def] at hr
  cases hq : s.queries[qid]? with
  | none => rw [joinRawOp, dupOp, hq] at hr; exact Option.noConfusion hr
  | some q =>
    rw [joinRawOp_eq s qid q t a k c hq] at hr
    obtain rfl : _ = r := Option.some.inj hr
    refine ⟨?_, rfl, by simp⟩
    intro i hi
    exact List.getElem?_append_left hi

theorem superJoin_frame (s : Store) (qid : Nat) (args : List JoinArg) :
    ∀ r ∈ superJoin s qid args,
      (∀ i, i < s.queries.length → r.1.queries[i]? = s.queries[i]?) ∧
      r.2 = s.queries.length := by
  intro r hr
  rw [Option.mem_def] at hr
  rw [superJoin.eq_def] at hr
  split at hr
  · have := joinRawOp_frame s qid _ _ _ _ r (by rw [Option.mem_def, hr])
    exact ⟨this.1, this.2.1⟩
  · have := joinRawOp_frame s qid _ _ _ _ r (by rw [Option.mem_def, hr])
    exact ⟨this.1, this.2.1⟩
  · exact Option.noConfusion hr

theorem joinAssociationGo_frame (env : Env) (om : ModelInfo)
    (ps : List (String × List String)) :
    ∀ (th : Option String) (st : Store) (cur : Nat),
      ∀ r ∈ joinAssociationGo env om ps th st cur,
        st.queries.length ≤ r.1.queries.length ∧
        (∀ i, i < st.queries.length → r.1.queries[i]? = st.queries[i]?) ∧
        (r.2 = cur ∨ st.queries.length ≤ r.2) := by
  induction ps with
  | nil =>
    intro th st cur r hr
    rw [Option.mem_def, joinAssociationGo] at hr
    obtain rfl : _ = r := Option.some.inj hr
    exact ⟨le_refl _, fun i _ => rfl, Or.inl rfl⟩
  | cons p rest ih =>
    intro th st cur r hr
    obtain ⟨key, segs⟩ := p
    rw [Option.mem_def, joinAssociationGo] at hr
    cases hlr : lookupRelation env om segs with
    | none => simp only [hlr] at hr; exact Option.noConfusion hr
    | some rel =>
      simp only [hlr] at hr
      cases hjoin : joinRelationOp st cur key th rel with
      | none => simp only [hjoin] at hr; exact Option.noConfusion hr
      | some r1 =>
        simp only [hjoin] at hr
        obtain ⟨st', nid⟩ := r1
        have hf := joinRelationOp_frame st cur key th rel (st', nid)
          (by rw [Option.mem_def, hjoin])
        have hrec := ih (some key) st' nid r (by rw [Option.mem_def]; exact hr)
        have hlen : st.queries.length ≤ st'.queries.length := by
          rw [hf.2.2]
          exact Nat.le_succ _
        refine ⟨le_trans hlen hrec.1, ?_, ?_⟩
        · intro i hi
          rw [hrec.2.1 i (lt_of_lt_of_le hi hlen), hf.1 i hi]
        · right
          rcases hrec.2.2 with h | h
          · rw [h]
            exact le_of_eq hf.2.1.symm
          · exact le_trans hlen h

theorem joinAssociationOp_frame (env : Env) (s : Store) (qid : Nat)
    (association : String) :
    ∀ r ∈ joinAssociationOp env s qid association,
      (∀ i, i < s.queries.length → r.1.queries[i]? = s.queries[i]?) ∧
      s.queries.length ≤ r.2 := by
  intro r hr
  rw [Option.mem_def, joinAssociationOp] at hr
  cases hq : s.queries[qid]? with
  | none => rw [hq] at hr; exact Option.noConfusion hr
  | some q =>
    rw [hq, dupOp_eq s qid q hq] at hr
    have hgo := joinAssociationGo_frame env q.model (prefixesOf association)
      none _ s.queries.length r (by rw [Option.mem_def]; exact hr)
    constructor
    · intro i hi
      have hi' : i < s.queries.length + 1 := Nat.lt_succ_of_lt hi
      have := hgo.2.1 i (by simpa using hi')
      rw [this]
      exact List.getElem?_append_left hi
    · rcases hgo.2.2 with h | h
      · exact le_of_eq h.symm
      · exact le_trans (Nat.le_succ _) (by simpa using h)

theorem modelJoin_frame (env : Env) (s : Store) (qid : Nat)
    (args : List JoinArg) :
    ∀ r ∈ modelJoin env s qid args,
      (∀ i, i < s.queries.length → r.1.queries[i]? = s.queries[i]?) ∧
      s.queries.length ≤ r.2 := by
  intro r hr
  rw [Option.mem_def, modelJoin.eq_def] at hr
  split at hr
  · exact joinAssociationOp_frame env s qid _ r (by rw [Option.mem_def, hr])
  · exact Option.noConfusion hr
  · have := superJoin_frame s qid args r (by rw [Option.mem_def, hr])
    exact ⟨this.1, le_of_eq this.2.symm⟩

/-- **C1.** Every chaining/duplication operation (`join`,
`_joinAssociation`, `_joinRelation`, `clone`, `_dup`, `_spawn`) returns a
distinct new query instance, leaves the parent query's own state — and
hence anything rendered from it — unchanged, and the joined-relations map
is copied on duplication so that mutating the duplicate's map never
affects the parent. -/
theorem c1_chaining_frame (s : Store) (qid : Nat)
    (h : qid < s.queries.length) : C1Frame s qid := by
  have hne : ∀ n, s.queries.length ≤ n → n ≠ qid := by
    intro n hn
    exact Nat.ne_of_gt (lt_of_lt_of_le h hn)
  refine ⟨?_, ?_, ?_, ?_, ?_, ?_, ?_⟩
  · intro r hr
    have hf := dupOp_frame s qid r hr
    exact ⟨hf.1 qid h, hne r.2 (le_of_eq hf.2.1.symm)⟩
  · intro r hr
    have hf := dupOp_frame s qid r hr
    exact ⟨hf.1 qid h, hne r.2 (le_of_eq hf.2.1.symm)⟩
  · intro r hr
    have hf := spawnOp_frame s qid r hr
    exact ⟨hf.1 qid h, hne r.2 (le_of_eq hf.2.1.symm)⟩
  · intro name through rel r hr
    have hf := joinRelationOp_frame s qid name through rel r hr
    exact ⟨hf.1 qid h, hne r.2 (le_of_eq hf.2.1.symm)⟩
  · intro env association r hr
    have hf := joinAssociationOp_frame env s qid association r hr
    refine ⟨⟨hf.1 qid h, hne r.2 hf.2⟩, ?_⟩
    intro render
    rw [hf.1 qid h]
  · intro env args r hr
    have hf := modelJoin_frame env s qid args r hr
    exact ⟨hf.1 qid h, hne r.2 hf.2⟩
  · intro r hr k v
    rw [Option.mem_def] at hr
    cases hq : s.queries[qid]? with
    | none => rw [dupOp, hq] at hr; exact Option.noConfusion hr
    | some q =>
      rw [dupOp_eq s qid q hq] at hr
      obtain rfl : _ = r := Option.some.inj hr
      rw [jrAssign]
      simp only [List.getElem?_concat_length]
      rw [setQ]
      simp only [set_concat_length]
      rw [List.getElem?_append_left h]
      exact hq

/-- **C1 witness.** The frame property at the concrete example store. -/
theorem c1_chaining_frame_witness :
    0 < exStore.queries.length ∧ C1Frame exStore 0 :=
  ⟨by decide, c1_chaining_frame exStore 0 (by decide)⟩

theorem joinAssociationGo_nil (env : Env) (om : ModelInfo)
    (th : Option String) (st : Store) (cur : Nat) :
    joinAssociationGo env om [] th st cur = some (st, cur) := rfl

theorem joinAssociationGo_cons (env : Env) (om : ModelInfo) (key : String)
    (segs : List String) (rest : List (String × List String))
    (th : Option String) (st : Store) (cur : Nat) :
    joinAssociationGo env om ((key, segs) :: rest) th st cur =
      match lookupRelation env om segs with
      | none => none
      | some rel =>
        match joinRelationOp st cur key th rel with
        | none => none
        | some (st', nid) =>
          joinAssociationGo env om rest (some key) st' nid := rfl

theorem joinRelationOp_result (s' : Store) (qid' : Nat) (q' : QueryState)
    (name : String) (th : Option String) (rel : Relation)
    (hq' : s'.queries[qid']? = some q') :
    ∀ r ∈ joinRelationOp s' qid' name th rel,
      (resultQuery (some r)).map (fun x => x.joins.length) =
        some (q'.joins.length + 1) ∧
      ∃ jt : String,
        (resultQuery (some r)).map (fun x => x.joinedRelations) =
          some (jrSet q'.joinedRelations name ⟨jt, rel⟩) := by
  intro r hr
  rw [Option.mem_def] at hr
  cases hTab : tableInQuery q' rel.relatedTableName with
  | false =>
    rw [joinRelationOp_eq_plain s' qid' q' name th rel hq' hTab] at hr
    obtain rfl : _ = r := Option.some.inj hr
    constructor
    · simp [resultQuery, List.getElem?_concat_length]
    · exact ⟨rel.relatedTableName, by
        simp [resultQuery, List.getElem?_concat_length]⟩
  | true =>
    cases hA : uniqueTableAlias q' rel.name with
    | none =>
      rw [joinRelationOp] at hr
      simp only [hq', hTab, if_true, hA] at hr
      exact Option.noConfusion hr
    | some al =>
      rw [joinRelationOp_eq_aliased s' qid' q' name th rel al hq' hTab hA]
        at hr
      obtain rfl : _ = r := Option.some.inj hr
      constructor
      · simp [resultQuery, List.getElem?_concat_length]
      · exact ⟨al, by simp [resultQuery, List.getElem?_concat_length]⟩

/-- **C3 counterexample.** Joining the association `author` twice on the
example query produces a second join clause and a second alias (`users`,
then `author`) instead of reusing the recorded alias: the re-join is not a
no-op. -/
theorem c3_counterexample_rejoin_duplicates :
    (resultQuery (joinAssociationOp exEnv exStore 0 "author")).map
        (fun q => q.joins.length) = some 1 ∧
    (resultQuery ((joinAssociationOp exEnv exStore 0 "author").bind
        (fun r => joinAssociationOp exEnv r.1 r.2 "author"))).map
        (fun q => q.joins.length) = some 2 ∧
    ¬ ((resultQuery ((joinAssociationOp exEnv exStore 0 "author").bind
        (fun r => joinAssociationOp exEnv r.1 r.2 "author"))).map
        (fun q => q.joins.length) =
      (resultQuery (joinAssociationOp exEnv exStore 0 "author")).map
        (fun q => q.joins.length)) ∧
    (resultQuery ((joinAssociationOp exEnv exStore 0 "author").bind
        (fun r => joinAssociationOp exEnv r.1 r.2 "author"))).map
        (fun q => q.joins.map (fun j => j.tableAlias)) =
      some ["users", "author"] := by
  refine ⟨?_, ?_, ?_, ?_⟩ <;> decide

/-- **C3 amended.** Joining a (single-segment) association path always
appends exactly one more join clause to the duplicate — even when the path
is already recorded in the joined-relations map — and overwrites the map
entry for that path with the join's (possibly fresh) alias, rather than
reusing the existing alias without a new join. -/
theorem c3_amended_rejoin_appends_clause (env : Env) (s : Store) (qid : Nat)
    (q : QueryState) (a : String) (rel : Relation)
    (hq : s.queries[qid]? = some q)
    (hsegs : splitDots a = [a])
    (hrel : lookupA q.model.relations a = some rel) :
    ∀ r ∈ joinAssociationOp env s qid a,
      (resultQuery (some r)).map (fun q' => q'.joins.length) =
        some (q.joins.length + 1) ∧
      ∃ jt : String,
        (resultQuery (some r)).map (fun q' => q'.joinedRelations) =
          some (jrSet q.joinedRelations a ⟨jt, rel⟩) := by
  intro r hr
  rw [Option.mem_def, joinAssociationOp] at hr
  have hpre : prefixesOf a = [(a, [a])] := by
    simp [prefixesOf, hsegs, joinDots]
  simp only [hq, dupOp_eq s qid q hq, hpre] at hr
  rw [joinAssociationGo_cons] at hr
  have hlr : lookupRelation env q.model [a] = some rel := by
    simpa [lookupRelation] using hrel
  simp only [hlr, joinAssociationGo_nil] at hr
  split at hr
  · exact Option.noConfusion hr
  · obtain rfl : _ = r := Option.some.inj hr
    next st' nid heq =>
    exact joinRelationOp_result _ _
      { q with executed := false, pid := s.nextPid, result := none }
      a none rel (List.getElem?_concat_length _ _) (st', nid)
      (by rw [Option.mem_def]; exact heq)

/-- **C3 amended witness.** The amended behaviour at the concrete first
`author` join. -/
theorem c3_amended_rejoin_appends_clause_witness :
    exStore.queries[0]? = some exQuery ∧
    splitDots "author" = ["author"] ∧
    lookupA exQuery.model.relations "author" = some exAuthorRel ∧
    (∀ r ∈ joinAssociationOp exEnv exStore 0 "author",
      (resultQuery (some r)).map (fun q' => q'.joins.length) =
        some (exQuery.joins.length + 1) ∧
      ∃ jt : String,
        (resultQuery (some r)).map (fun q' => q'.joinedRelations) =
          some (jrSet exQuery.joinedRelations "author" ⟨jt, exAuthorRel⟩)) :=
  ⟨rfl, by decide, rfl,
   c3_amended_rejoin_appends_clause exEnv exStore 0 exQuery "author"
     exAuthorRel rfl (by decide) rfl⟩

theorem ne_of_last_char (s b t : String) (c : Char)
    (ht : t.data.getLast? = some c) (hs : s.data.getLast? ≠ some c) :
    s ≠ b ++ t := by
  intro h
  have h2 := congrArg (fun x => x.data.getLast?) h
  simp only [String.data_append, List.getLast?_append, ht, Option.or_some]
    at h2
  exact hs h2

/-- **C4 counterexample.** Joining `author` and then `reviewer` (two
different associations resolving to table `users`) yields the aliases
`users` (no alias generated at all for the first join) and `reviewer` (the
bare relation name) — neither of the form `name_j1`/`name_j2`. -/
theorem c4_counterexample_bare_aliases :
    (resultQuery ((joinAssociationOp exEnv exStore 0 "author").bind
        (fun r => joinAssociationOp exEnv r.1 r.2 "reviewer"))).map
        (fun q => q.joins.map (fun j => j.tableAlias)) =
      some ["users", "reviewer"] ∧
    (∀ b : String, "reviewer" ≠ b ++ "_j1") ∧
    (∀ b : String, "reviewer" ≠ b ++ "_j2") ∧
    (∀ b : String, "users" ≠ b ++ "_j1") ∧
    (∀ b : String, "users" ≠ b ++ "_j2") :=
  ⟨by decide,
   fun b => ne_of_last_char "reviewer" b "_j1" '1' rfl (by decide),
   fun b => ne_of_last_char "reviewer" b "_j2" '2' rfl (by decide),
   fun b => ne_of_last_char "users" b "_j1" '1' rfl (by decide),
   fun b => ne_of_last_char "users" b "_j2" '2' rfl (by decide)⟩

theorem uniqueTableAliasAux_spec (q : QueryState) (name : String) :
    ∀ (fuel n : Nat) (a : String),
      uniqueTableAliasAux q name fuel n = some a →
      tableInQuery q a = false ∧
      ∃ k, n ≤ k ∧ a = aliasCandidate name k ∧
        ∀ m, n ≤ m → m < k → tableInQuery q (aliasCandidate name m) = true := by
  intro fuel
  induction fuel with
  | zero => intro n a h; exact Option.noConfusion h
  | succ fuel ih =>
    intro n a h
    rw [uniqueTableAliasAux] at h
    cases hTab : tableInQuery q (aliasCandidate name n) with
    | false =>
      rw [hTab] at h
      simp only [Bool.false_eq_true, if_false] at h
      obtain rfl : _ = a := Option.some.inj h
      refine ⟨hTab, n, le_refl n, rfl, ?_⟩
      intro m hnm hmn
      exact absurd (lt_of_le_of_lt hnm hmn) (lt_irrefl n)
    | true =>
      rw [hTab] at h
      simp only [if_true] at h
      obtain ⟨hfree, k, hk, rfl, hall⟩ := ih (n + 1) a h
      refine ⟨hfree, k, le_trans (Nat.le_succ n) hk, rfl, ?_⟩
      intro m hnm hmk
      rcases Nat.eq_or_lt_of_le hnm with h' | h'
      · rw [← h']
        exact hTab
      · exact hall m h' hmk

/-- **C4 amended.** When the alias loop runs, the chosen alias is the first
unused candidate in the sequence `relationName`, `relationName_j1`,
`relationName_j2`, ...: it is never a name already used in the query (no
collision), every earlier candidate is in use, and in particular the bare
(unsuffixed) relation name is chosen whenever it is itself free. -/
theorem c4_amended_first_free_candidate (q : QueryState) (name : String) :
    (∀ a ∈ uniqueTableAlias q name,
      tableInQuery q a = false ∧
      ∃ k, a = aliasCandidate name k ∧
        ∀ m, m < k → tableInQuery q (aliasCandidate name m) = true) ∧
    (tableInQuery q name = false → uniqueTableAlias q name = some name) := by
  constructor
  · intro a ha
    rw [Option.mem_def, uniqueTableAlias] at ha
    obtain ⟨hfree, k, _, rfl, hall⟩ :=
      uniqueTableAliasAux_spec q name (q.joinedRelations.length + 2) 0 a ha
    exact ⟨hfree, k, rfl, fun m hm => hall m (Nat.zero_le m) hm⟩
  · intro hfree
    rw [uniqueTableAlias, uniqueTableAliasAux]
    have : aliasCandidate name 0 = name := rfl
    rw [this, hfree]
    simp

/-- **C4 amended witness.** The first-free-candidate property at the
concrete example query: `users` is in use there, so the alias for a
relation named `author` is the bare name `author`. -/
theorem c4_amended_first_free_candidate_witness :
    ((∀ a ∈ uniqueTableAlias exQuery "author",
      tableInQuery exQuery a = false ∧
      ∃ k, a = aliasCandidate "author" k ∧
        ∀ m, m < k → tableInQuery exQuery (aliasCandidate "author" m) = true) ∧
    (tableInQuery exQuery "author" = false →
      uniqueTableAlias exQuery "author" = some "author")) ∧
    tableInQuery exQuery "author" = false ∧
    uniqueTableAlias exQuery "author" = some "author" :=
  ⟨c4_amended_first_free_candidate exQuery "author",
   by decide,
   (c4_amended_first_free_candidate exQuery "author").2 (by decide)⟩

/-- **C6.** `ModelQuery#join` dispatches on argument count alone: exactly
one argument is interpreted as an association-name join
(`_joinAssociation`), while two or more arguments always fall through to
the superclass's raw table/condition join — even when the first argument
also names an association — and the raw join records nothing in the
joined-relations map, only appending a raw join clause. -/
theorem c6_join_argument_count_dispatch (env : Env) (s : Store) (qid : Nat)
    (a : String) :
    (modelJoin env s qid [JoinArg.str a] = joinAssociationOp env s qid a) ∧
    (∀ (k : String) (c : JoinPredicate),
      modelJoin env s qid [JoinArg.str a, JoinArg.str k, JoinArg.cnd c] =
        superJoin s qid [JoinArg.str a, JoinArg.str k, JoinArg.cnd c]) ∧
    (∀ (k : String) (c : JoinPredicate) (q : QueryState),
      s.queries[qid]? = some q →
      ∀ r ∈ modelJoin env s qid [JoinArg.str a, JoinArg.str k, JoinArg.cnd c],
        (r.1.queries[r.2]?).map (fun q' => q'.joinedRelations) =
          some q.joinedRelations ∧
        (r.1.queries[r.2]?).map (fun q' => q'.joins) =
          some (q.joins ++ [⟨a, a, k, c⟩])) := by
  refine ⟨rfl, fun k c => rfl, ?_⟩
  intro k c q hq r hr
  rw [Option.mem_def] at hr
  have : modelJoin env s qid
      [JoinArg.str a, JoinArg.str k, JoinArg.cnd c] =
      joinRawOp s qid a a k c := rfl
  rw [this, joinRawOp_eq s qid q a a k c hq] at hr
  obtain rfl : _ = r := Option.some.inj hr
  constructor
  · simp [List.getElem?_concat_length]
  · simp [List.getElem?_concat_length]

/-- **C6 witness.** Dispatch at the concrete store: a single `author`
argument goes to association joining, while the three-argument form with
the same first argument performs a raw join of a table named `author` and
leaves the joined-relations map untouched. -/
theorem c6_join_argument_count_dispatch_witness :
    (modelJoin exEnv exStore 0 [JoinArg.str "author"] =
      joinAssociationOp exEnv exStore 0 "author") ∧
    exStore.queries[0]? = some exQuery ∧
    (∀ r ∈ modelJoin exEnv exStore 0
        [JoinArg.str "author", JoinArg.str "inner",
          JoinArg.cnd ⟨"articles", "users", "author"⟩],
      (r.1.queries[r.2]?).map (fun q' => q'.joinedRelations) =
        some exQuery.joinedRelations ∧
      (r.1.queries[r.2]?).map (fun q' => q'.joins) =
        some (exQuery.joins ++
          [⟨"author", "author", "inner", ⟨"articles", "users", "author"⟩⟩])) :=
  ⟨(c6_join_argument_count_dispatch exEnv exStore 0 "author").1, rfl,
   (c6_join_argument_count_dispatch exEnv exStore 0 "author").2.2 "inner"
     ⟨"articles", "users", "author"⟩ exQuery rfl⟩

end Azul
